import Mathlib

/-!
Verification of the valkyrie RESP server against its specification.

The definitions below are shallow embeddings of the Rust sources:
byte buffers are lists of naturals (one per byte), Rust String payloads
are their byte sequences, machine integers are modelled as Nat or Int
with explicit range checks where the source parses or could overflow.
-/

/-- Byte sequence of an ASCII string literal (used to transcribe the
string literals of the source). -/
def ascii (s : String) : List Nat :=
  s.data.map Char.toNat

/-- The RESP line terminator bytes, CR LF (source constant RESP_TERMINATOR). -/
def crlf : List Nat := [13, 10]

/-- True when a byte is an ASCII decimal digit (0x30 to 0x39). -/
def is_digit_byte (b : Nat) : Bool :=
  decide (48 ≤ b) && decide (b ≤ 57)

/-- Numeric value of a list of ASCII digit bytes, most significant first. -/
def digits_val (ds : List Nat) : Nat :=
  ds.foldl (fun a d => a * 10 + (d - 48)) 0

/-- Embeds the digit part of Rust unsigned from_str: at least one byte,
all ASCII digits; overflow is checked by the sized wrappers below. -/
def parse_unsigned_dec (s : List Nat) : Option Nat :=
  if s.isEmpty then none
  else if s.all is_digit_byte then some (digits_val s) else none

/-- Embeds the sign handling of Rust signed from_str: one optional
leading plus (0x2b) or minus (0x2d), then digits. -/
def parse_signed_dec (s : List Nat) : Option Int :=
  match s with
  | [] => none
  | c :: rest =>
    if c = 43 then (parse_unsigned_dec rest).map (fun n => (n : Int))
    else if c = 45 then (parse_unsigned_dec rest).map (fun n => -(n : Int))
    else (parse_unsigned_dec (c :: rest)).map (fun n => (n : Int))

/-- Embeds str::parse::<i32> (value must fit in signed 32 bits). -/
def parse_i32 (s : List Nat) : Option Int :=
  (parse_signed_dec s).bind
    (fun v => if -2147483648 ≤ v ∧ v ≤ 2147483647 then some v else none)

/-- Embeds str::parse::<isize> on the 64-bit target (signed 64 bits). -/
def parse_i64 (s : List Nat) : Option Int :=
  (parse_signed_dec s).bind
    (fun v => if -9223372036854775808 ≤ v ∧ v ≤ 9223372036854775807 then some v else none)

/-- Embeds str::parse::<u64>: optional leading plus, digits, fits 64 bits. -/
def parse_u64 (s : List Nat) : Option Nat :=
  (match s with
   | 43 :: rest => parse_unsigned_dec rest
   | _ => parse_unsigned_dec s).bind
    (fun n => if n ≤ 18446744073709551615 then some n else none)

/-- Digit-extraction loop for nat_digits; the fuel argument makes the
recursion structural (the wrapper supplies fuel larger than the number,
which always suffices since the number shrinks by a factor of ten). -/
def nat_digits_go : Nat → Nat → List Nat
  | 0, _ => []
  | fuel + 1, n =>
    if n < 10 then [48 + n]
    else nat_digits_go fuel (n / 10) ++ [48 + n % 10]

/-- Decimal digit bytes of a natural number (Rust usize/u64 Display). -/
def nat_digits (n : Nat) : List Nat :=
  nat_digits_go (n + 1) n

/-- Decimal digit bytes of an integer (Rust i32/isize Display). -/
def int_digits (i : Int) : List Nat :=
  if i < 0 then 45 :: nat_digits i.natAbs else nat_digits i.toNat

/-- True when the byte list contains no CR LF pair. -/
def crlf_free : List Nat → Bool
  | [] => true
  | [_] => true
  | a :: b :: rest =>
    if a = 13 ∧ b = 10 then false else crlf_free (b :: rest)

/-- Embeds ForwardBuf::consume_part (find_delimiters_position followed by
the slice up to the CR LF and the advance past it): the part before the
first CR LF pair together with the bytes after that pair, or none when
no CR LF pair is present. -/
def consume_part : List Nat → Option (List Nat × List Nat)
  | [] => none
  | [_] => none
  | a :: b :: rest =>
    if a = 13 ∧ b = 10 then some ([], rest)
    else (consume_part (b :: rest)).map (fun vr => (a :: vr.1, vr.2))

/-- Embeds the RedisType enum of redis_serialization_protocol.rs.
String payloads are byte sequences; Integer carries the i32 payload as
an Int (the parser enforces the 32-bit range, as the Rust type does). -/
inductive RedisType where
  | SimpleString (s : List Nat)
  | BulkString (s : List Nat)
  | NullBulkString
  | Array (elements : List RedisType)
  | NullArray
  | Integer (i : Int)
  | InvalidType (msg : List Nat)
  | SimpleError (msg : List Nat)
  | Null
deriving Inhabited

/-- Message text of the incomplete-integer branch: the source string is
Can, apostrophe (byte 39), then t read integer. -/
def cant_read_integer_msg : List Nat :=
  ascii "Can" ++ [39] ++ ascii "t read integer"

mutual
/-- Embeds ToRespBytes::to_resp_bytes for RedisType. -/
def to_resp_bytes : RedisType → List Nat
  | .SimpleError m => 45 :: (m ++ crlf)
  | .SimpleString s => 43 :: (s ++ crlf)
  | .BulkString s => 36 :: (nat_digits s.length ++ crlf ++ s ++ crlf)
  | .NullBulkString => [36, 45, 49, 13, 10]
  | .Array es => 42 :: (nat_digits es.length ++ crlf) ++ to_resp_bytes_list es
  | .NullArray => [42, 45, 49, 13, 10]
  | .Integer i => 58 :: (int_digits i ++ crlf)
  | .InvalidType m => 45 :: (m ++ crlf)
  | .Null => [95, 13, 10]

/-- Concatenated encodings of a list of frames (the element loop of the
Array arm of to_resp_bytes). -/
def to_resp_bytes_list : List RedisType → List Nat
  | [] => []
  | f :: fs => to_resp_bytes f ++ to_resp_bytes_list fs
end

/-- Input of the combined recursive parser: either one frame from a
buffer (try_parse_type_forward) or a count of array elements from a
buffer (the element loop inside the array arm). The two mutually
recursive source functions are combined into one fuel-indexed function
so that the recursion is structural on the fuel. -/
inductive ParseIn where
  | frame (buf : List Nat)
  | elems (n : Nat) (buf : List Nat)

/-- Result of the combined parser: a frame with the unconsumed rest,
a list of elements with the unconsumed rest, the need-more-input case
(None in the source), the panic of the todo branch for an unknown
marker byte, or fuel exhaustion (never reached from the wrappers,
which always supply more fuel than the recursion can use).  The type
is shared by the two parsing modes, so the impossible cross cases (an
element-list result from a frame parse and vice versa, which the Rust
types rule out statically) are mapped to the dead noFuel marker. -/
inductive ParseOut where
  | okF (t : RedisType) (rest : List Nat)
  | okE (ts : List RedisType) (rest : List Nat)
  | needMore
  | panicked
  | noFuel

/-- Embeds try_parse_type_forward together with its array-element loop.
The buffer-and-offset ForwardBuf of the source is represented by the
list of not-yet-consumed bytes; consumed byte counts are recovered from
length differences by the wrapper below. -/
def parse_go : Nat → ParseIn → ParseOut
  | 0, _ => .noFuel
  | _ + 1, .frame [] => .needMore
  | fuel + 1, .frame (b :: rest) =>
    if b = 43 then
      match consume_part rest with
      | none => .needMore
      | some (value, r) => .okF (.SimpleString value) r
    else if b = 42 then
      match consume_part rest with
      | none => .needMore
      | some (lenStr, r) =>
        match parse_i64 lenStr with
        | some len =>
          if len = -1 then .okF .NullArray r
          else if len < 0 then
            .okF (.InvalidType (ascii "Invalid array length " ++ int_digits len)) r
          else
            match parse_go fuel (.elems len.toNat r) with
            | .okE elements r2 => .okF (.Array elements) r2
            | .okF _ _ => .noFuel
            | .needMore => .needMore
            | .panicked => .panicked
            | .noFuel => .noFuel
        | none => .okF (.InvalidType (ascii "Array length not a number " ++ lenStr)) r
    else if b = 36 then
      match consume_part rest with
      | none => .needMore
      | some (lenStr, r) =>
        match parse_i64 lenStr with
        | some len =>
          if len = -1 then .okF .NullBulkString r
          else if len < 0 then
            .okF (.InvalidType (ascii "Invalid bulk string length " ++ int_digits len)) r
          else
            match consume_part r with
            | some (strValue, r2) => .okF (.BulkString strValue) r2
            | none => .needMore
        | none => .okF (.InvalidType (ascii "Bulk string length not a number " ++ lenStr)) r
    else if b = 58 then
      match consume_part rest with
      | some (intStr, r) =>
        match parse_i32 intStr with
        | some v => .okF (.Integer v) r
        | none => .okF (.InvalidType (ascii "Invalid integer " ++ intStr)) r
      | none => .okF (.InvalidType cant_read_integer_msg) rest
    else .panicked
  | _ + 1, .elems 0 buf => .okE [] buf
  | fuel + 1, .elems (n + 1) buf =>
    match parse_go fuel (.frame buf) with
    | .okF element rest =>
      match parse_go fuel (.elems n rest) with
      | .okE elements r2 => .okE (element :: elements) r2
      | .okF _ _ => .noFuel
      | .needMore => .needMore
      | .panicked => .panicked
      | .noFuel => .noFuel
    | .okE _ _ => .noFuel
    | .needMore => .needMore
    | .panicked => .panicked
    | .noFuel => .noFuel

/-- Result of try_parse_frame as the connection loop sees it: a frame
with the number of consumed bytes, need-more, or a panic propagating
out of the parser. -/
inductive FrameParse where
  | ok (t : RedisType) (consumed : Nat)
  | needMore
  | panicked
  | noFuel

/-- Embeds try_parse_frame: empty buffer is need-more; otherwise parse
one frame from the front and report the consumed byte count. -/
def try_parse_frame (buf : List Nat) : FrameParse :=
  if buf.isEmpty then .needMore
  else
    match parse_go (2 * buf.length + 2) (.frame buf) with
    | .okF t rest => .ok t (buf.length - rest.length)
    | .okE _ _ => .noFuel
    | .needMore => .needMore
    | .panicked => .panicked
    | .noFuel => .noFuel

/-- Embeds the frame-extraction step of handle_tcp_connection_from_client:
on a parsed frame the consumed prefix is split off the read buffer and
the frame is dispatched; otherwise the loop reads more bytes with the
buffer unchanged. -/
def connection_step (buf : List Nat) : Option (RedisType × List Nat) :=
  match try_parse_frame buf with
  | .ok t n => some (t, buf.drop n)
  | _ => none

/-- Single quote character as a string (byte 39), used to transcribe the
quoted key names inside the storage error messages. -/
def squo : String := (Char.ofNat 39).toString

/-- Embeds the StorageValue enum of the shard map: a key holds either a
string value or a list (deque) of string values. -/
inductive StorageValue where
  | Str (s : String)
  | List (values : List String)
deriving DecidableEq

/-- Embeds the StorageResponse enum (union of the variants used by the
handlers modelled here). -/
inductive StorageResponse where
  | KeyValue (value : String)
  | Null
  | Success
  | ListLength (n : Nat)
  | ListValues (values : List String)
  | ValueFromList (value : String) (list_name : String)
  | Failed (msg : String)
deriving DecidableEq

/-- The per-shard map from keys to stored values. -/
def ShardMap : Type := String → Option StorageValue

/-- Update of the shard map at one key (HashMap::insert / remove). -/
def shard_put (m : ShardMap) (key : String) (v : Option StorageValue) : ShardMap :=
  fun k => if k = key then v else m k

/-- Embeds ListRangeStorage::normalize_list_range_index: negative
indices count from the end and clamp at zero; non-negative start clamps
to the length, non-negative end clamps to length minus one.  The source
asserts the result is non-negative before the usize cast; its caller
only invokes it on non-empty lists, for which the assertion holds. -/
def normalize_list_range_index (index : Int) (values_len : Nat) (start_index : Bool) : Nat :=
  if index < 0 then (index + values_len).toNat
  else (min index (if start_index then (values_len : Int) else values_len - 1)).toNat

/-- Embeds ListRangeStorage::handle: the LRANGE storage handler.  Note
the element selection is iter().skip(start).take(end + 1). -/
def list_range_storage_handle (key : String) (start stop : Int) (m : ShardMap) :
    StorageResponse :=
  match m key with
  | some (.List values) =>
    if values.isEmpty then .ListValues []
    else
      let s := normalize_list_range_index start values.length true
      let e := normalize_list_range_index stop values.length false
      if s = values.length ∨ s > e then .ListValues []
      else .ListValues ((values.drop s).take (e + 1))
  | some _ => .Failed (squo ++ key ++ squo ++ " is not a list.")
  | none => .Failed ("No list found with name " ++ squo ++ key ++ squo)

/-- Embeds ListLengthStorage::handle: the LLEN storage handler. -/
def list_length_storage_handle (key : String) (m : ShardMap) : StorageResponse :=
  match m key with
  | some (.List values) => .ListLength values.length
  | some _ => .Failed (squo ++ key ++ squo ++ " is not a list.")
  | none => .ListLength 0

/-- Embeds ListLeftPopStorage::handle: the LPOP storage handler, which
pops from the head and removes the key when its list becomes (or is
found) empty; returns the response and the updated map. -/
def list_left_pop_storage_handle (key : String) (count : Option Nat) (m : ShardMap) :
    StorageResponse × ShardMap :=
  match m key with
  | none => (.Null, m)
  | some (.Str _) => (.Failed (squo ++ key ++ squo ++ " is not a list."), m)
  | some (.List values) =>
    match count with
    | none =>
      match values with
      | v :: vs =>
        if vs.isEmpty then (.KeyValue v, shard_put m key none)
        else (.KeyValue v, shard_put m key (some (.List vs)))
      | [] => (.Null, shard_put m key none)
    | some c =>
      if c = 0 then (.ListValues [], m)
      else
        let k := min c values.length
        let out := values.take k
        let rest := values.drop k
        if rest.isEmpty then (.ListValues out, shard_put m key none)
        else (.ListValues out, shard_put m key (some (.List rest)))

/-- Embeds ListLeftBlockingPopStorage::commit: the pop committed after a
successful BLPOP reply.  It pops the head of the list (a no-op when the
deque is empty) and, unlike the LPOP handler, never removes the key. -/
def list_left_blocking_pop_commit (key : String) (m : ShardMap) : ShardMap :=
  match m key with
  | some (.List values) => shard_put m key (some (.List values.tail))
  | _ => m

/-- One spawned TTL expiration task of a shard: its handle identity, the
key it will remove, whether its JoinHandle was aborted, and whether its
body already ran. -/
structure TtlTask where
  id : Nat
  key : String
  aborted : Bool
  fired : Bool
deriving DecidableEq

/-- Shard-local state relevant to SET with TTL: the map, the ttl_tasks
registry (delayed_tasks in the source) from key to task handle, the
spawned tasks, and a counter producing fresh handle identities. -/
structure ShardTtlState where
  map : ShardMap
  ttl_tasks : String → Option Nat
  tasks : List TtlTask
  next_id : Nat

/-- Marks the task with the given handle as aborted (JoinHandle::abort). -/
def abort_task (h : Nat) (ts : List TtlTask) : List TtlTask :=
  ts.map (fun t => if t.id = h then { t with aborted := true } else t)

/-- Embeds SetStorage::handle: insert the string value; remove and abort
any previously registered expiration task for the key; when
expiration_in_ms is positive, spawn a fresh expiration task and register
its handle in ttl_tasks. -/
def set_storage_handle (key value : String) (expiration_in_ms : Nat) (s : ShardTtlState) :
    ShardTtlState :=
  let map1 := shard_put s.map key (some (.Str value))
  let tasks1 :=
    match s.ttl_tasks key with
    | some h => abort_task h s.tasks
    | none => s.tasks
  let ttl1 := fun k => if k = key then none else s.ttl_tasks k
  if expiration_in_ms > 0 then
    { map := map1
      ttl_tasks := fun k => if k = key then some s.next_id else ttl1 k
      tasks := tasks1 ++ [⟨s.next_id, key, false, false⟩]
      next_id := s.next_id + 1 }
  else
    { map := map1, ttl_tasks := ttl1, tasks := tasks1, next_id := s.next_id }

/-- Embeds the body of the spawned expiration task after its sleep: it
removes its key from the map and nothing else; an aborted or already
finished task does not run.  The ttl_tasks registry is not touched. -/
def fire_expiration (h : Nat) (s : ShardTtlState) : ShardTtlState :=
  match s.tasks.find? (fun t => t.id = h) with
  | some t =>
    if t.aborted ∨ t.fired then s
    else
      { map := shard_put s.map t.key none
        ttl_tasks := s.ttl_tasks
        tasks := s.tasks.map (fun u => if u.id = h then { u with fired := true } else u)
        next_id := s.next_id }
  | none => s

/-- A TTL task is live when it was neither aborted nor has fired. -/
def task_live (t : TtlTask) : Prop := t.aborted = false ∧ t.fired = false

/-- Shard TTL invariant: task handles are below the fresh counter,
handles identify tasks uniquely, every live task is the one registered
in ttl_tasks under its key, and every registered handle is below the
fresh counter. -/
def ttl_invariant (s : ShardTtlState) : Prop :=
  (∀ t ∈ s.tasks, t.id < s.next_id) ∧
  (∀ t1 ∈ s.tasks, ∀ t2 ∈ s.tasks, t1.id = t2.id → t1 = t2) ∧
  (∀ t ∈ s.tasks, task_live t → s.ttl_tasks t.key = some t.id) ∧
  (∀ k h, s.ttl_tasks k = some h → h < s.next_id)

/-- The empty shard TTL state. -/
def ttl_init : ShardTtlState :=
  { map := fun _ => none, ttl_tasks := fun _ => none, tasks := [], next_id := 0 }

/-- Embeds the per-key outcome of timeout(Duration::from_secs(timeout),
engine.execute(ListLeftBlockingPopStorage)) in BlockingLeftPopCommand::execute,
in a discrete-time model: the storage reply for the key becomes ready
ready_at_ms milliseconds after the command starts (none when no push
ever arrives); tokio's timeout yields the value only when it is ready
no later than the deadline of 1000 * timeout_secs milliseconds, and a
zero-duration sleep is already elapsed when first polled. -/
def blpop_key_outcome (timeout_secs : Nat) (ready_at_ms : Option Nat) : Bool :=
  match ready_at_ms with
  | some t => decide (t ≤ 1000 * timeout_secs)
  | none => false

/-- Embeds the reply selection of BlockingLeftPopCommand::execute: the
first per-key future to complete within its timeout yields the
Array [key, value] reply; when every key times out, first_result stays
None and the reply written is RedisType::NullBulkString.  Each key is
given as (name bytes, pushed value bytes, readiness time). -/
def blpop_execute_reply (timeout_secs : Nat)
    (keys : List (List Nat × List Nat × Option Nat)) : RedisType :=
  match keys.findSome?
      (fun kv => if blpop_key_outcome timeout_secs kv.2.2 then some (kv.1, kv.2.1) else none) with
  | some (name, v) => .Array [.BulkString name, .BulkString v]
  | none => .NullBulkString

/-- Lowercases one ASCII byte (eq_ignore_ascii_case comparison). -/
def to_lower_byte (b : Nat) : Nat :=
  if 65 ≤ b ∧ b ≤ 90 then b + 32 else b

/-- Embeds SetCommand::parse of src/command/set.rs: arity check, bulk
key and value, then the optional EX seconds / PX milliseconds pair at
positions 3 and 4; an option token other than EX/PX (or a non-bulk pair)
leaves the TTL sentinel at zero.  The EX multiplication is the u64
multiplication of the source, reduced modulo 2 to the 64. -/
def set_command_parse (r : RedisType) :
    Except (List Nat) (List Nat × List Nat × Nat) :=
  match r with
  | .Array elements =>
    if elements.length < 3 then .error (ascii "Not enough arguments for SET command")
    else
      match elements[1]?, elements[2]? with
      | some (RedisType.BulkString key), some (RedisType.BulkString value) =>
        if 5 ≤ elements.length then
          match elements[3]?, elements[4]? with
          | some (RedisType.BulkString arg), some (RedisType.BulkString argValue) =>
            if arg.map to_lower_byte = ascii "ex" then
              match parse_u64 argValue with
              | some n => .ok (key, value, (1000 * n) % 18446744073709551616)
              | none =>
                .error (ascii "Can" ++ [39] ++ ascii "t convert EX value " ++ [39] ++
                  argValue ++ [39] ++ ascii " to number")
            else if arg.map to_lower_byte = ascii "px" then
              match parse_u64 argValue with
              | some n => .ok (key, value, n)
              | none =>
                .error (ascii "Can" ++ [39] ++ ascii "t convert PX value " ++ [39] ++
                  argValue ++ [39] ++ ascii " to number")
            else .ok (key, value, 0)
          | _, _ => .ok (key, value, 0)
        else .ok (key, value, 0)
      | _, _ => .error (ascii "SET arguments are not BulkString")
  | _ => .error (ascii "Unsupported request, expected Array")

example : try_parse_frame (ascii "+OK\r\n") = .ok (.SimpleString (ascii "OK")) 5 := by rfl
example : try_parse_frame (ascii "-x\r\n") = .panicked := by rfl
example : try_parse_frame (ascii "$4\r\nbulk\r\n") = .ok (.BulkString (ascii "bulk")) 10 := by rfl
example : try_parse_frame (ascii "*2\r\n+OK\r\n+Ping\r\n") =
    .ok (.Array [.SimpleString (ascii "OK"), .SimpleString (ascii "Ping")]) 16 := by rfl
example : try_parse_frame (ascii ":+42\r\n") = .ok (.Integer 42) 6 := by rfl
example : try_parse_frame (ascii ":2147483648\r\n") =
    .ok (.InvalidType (ascii "Invalid integer 2147483648")) 13 := by rfl
example : try_parse_frame (ascii "*1\r\n") = .needMore := by rfl
example : try_parse_frame (ascii "$-1\r\n") = .ok .NullBulkString 5 := by rfl
example : to_resp_bytes (.Array [.BulkString (ascii "ab"), .Integer (-7)]) =
    ascii "*2\r\n$2\r\nab\r\n:-7\r\n" := by
  simp only [to_resp_bytes, to_resp_bytes_list]
  rfl
example : to_resp_bytes .NullBulkString = ascii "$-1\r\n" := by
  simp only [to_resp_bytes]
  rfl
example : to_resp_bytes (.SimpleError (ascii "e")) = [45, 101, 13, 10] := by
  simp only [to_resp_bytes]
  rfl

/-- The five-element store used as the LRANGE failing input. -/
def lrange_bug_store : ShardMap :=
  fun k => if k = "k" then some (.List ["a", "b", "c", "d", "e"]) else none

/-- Claim C1: for every byte sequence a client can send, frame parsing
returns a parse result without panicking; in particular the branch for
a first byte outside plus, star, dollar, colon (including the minus of
a simple error) is unreachable.  Refuted: a buffer starting with the
simple-error marker byte 45 drives try_parse_frame into the panic
branch of the todo arm of try_parse_type_forward. -/
theorem C1_panic_reachable_on_simple_error_marker :
    try_parse_frame (ascii "-x\r\n") = .panicked ∧
    try_parse_frame (ascii "-ERR oops\r\n") = .panicked := by
  exact ⟨rfl, rfl⟩

/-- Claim C3: LRANGE returns exactly the elements at positions start to
stop inclusive after normalization, never past the normalized stop.
Refuted at the concrete store mapping k to [a, b, c, d, e] with raw
range 1 2: the handler returns [b, c, d], which contains the element d
at position 3 past the normalized stop 2 (the source takes end + 1
elements from start instead of end - start + 1). -/
theorem C3_lrange_returns_elements_past_stop :
    list_range_storage_handle "k" 1 2 lrange_bug_store = .ListValues ["b", "c", "d"] ∧
    list_range_storage_handle "k" 1 2 lrange_bug_store ≠ .ListValues ["b", "c"] := by
  constructor
  · rfl
  · decide

/-- Claim C4: when every BLPOP key times out, the reply written to the
client is the null array encoding star minus one.  Refuted: the
all-timed-out branch of BlockingLeftPopCommand::execute writes
RedisType::NullBulkString, whose encoding is dollar minus one, not the
null array encoding. -/
theorem C4_blpop_timeout_reply_is_null_bulk_not_null_array :
    blpop_execute_reply 1 [(ascii "mylist", ascii "", none)] = .NullBulkString ∧
    to_resp_bytes .NullBulkString = ascii "$-1\r\n" ∧
    to_resp_bytes .NullArray = ascii "*-1\r\n" ∧
    ascii "$-1\r\n" ≠ ascii "*-1\r\n" := by
  refine ⟨rfl, by simp only [to_resp_bytes]; rfl, by simp only [to_resp_bytes]; rfl, by decide⟩

/-- Claim C5: BLPOP with timeout argument 0 blocks indefinitely and
completes with the key-value pair once a push arrives.  Refuted in the
discrete-time model of the execute race: the zero-second timeout wraps
each per-key wait in timeout(Duration::from_secs(0), ...), whose sleep
is already elapsed at the first poll, so a reply becoming ready at any
positive time is discarded and the command produces the timeout reply. -/
theorem C5_blpop_timeout_zero_times_out_immediately :
    ∀ t : Nat, 0 < t →
      blpop_execute_reply 0 [(ascii "mylist", ascii "v", some t)] = .NullBulkString := by
  intro t ht
  simp only [blpop_execute_reply, blpop_key_outcome, List.findSome?]
  have h0 : ¬ (t ≤ 1000 * 0) := by omega
  have h1 : t ≠ 0 := by omega
  simp [h0, h1]

/-- Witness for C5 at the concrete readiness time of five milliseconds. -/
theorem C5_witness :
    (0 < 5) ∧
      blpop_execute_reply 0 [(ascii "mylist", ascii "v", some 5)] = .NullBulkString :=
  ⟨by decide, C5_blpop_timeout_zero_times_out_immediately 5 (by decide)⟩

/-- The one-element store used as the BLPOP commit failing input. -/
def blpop_bug_store : ShardMap :=
  fun k => if k = "k" then some (.List ["v"]) else none

/-- Claim C6: no key maps to an empty list in any reachable store; every
pop that empties a list removes the key, after which LLEN returns 0 and
LRANGE returns the list-absent error.  Refuted on the BLPOP commit path:
committing the pop of the single element of k leaves k bound to an
empty list, so LRANGE answers an empty array instead of the list-absent
error (the LPOP handler, by contrast, does remove the key, as the last
conjunct shows). -/
theorem C6_blpop_commit_leaves_empty_list_behind :
    list_left_blocking_pop_commit "k" blpop_bug_store "k" = some (.List []) ∧
    list_range_storage_handle "k" 0 (-1) (list_left_blocking_pop_commit "k" blpop_bug_store) =
      .ListValues [] ∧
    list_range_storage_handle "k" 0 (-1) (list_left_blocking_pop_commit "k" blpop_bug_store) ≠
      .Failed ("No list found with name " ++ squo ++ "k" ++ squo) ∧
    list_length_storage_handle "k" (list_left_blocking_pop_commit "k" blpop_bug_store) =
      .ListLength 0 ∧
    (list_left_pop_storage_handle "k" none blpop_bug_store).2 "k" = none := by
  refine ⟨rfl, rfl, by decide, rfl, rfl⟩

/-- Claim C10 (implicit): a SET of at least five arguments whose option
token at position 3 is a bulk string other than EX or PX in any case
parses successfully as a plain SET with TTL sentinel zero, silently
ignoring the option and its value. -/
theorem C10_set_unknown_option_silently_ignored :
    ∀ (e0 : RedisType) (k v opt : List Nat) (e4 : RedisType) (rest : List RedisType),
      opt.map to_lower_byte ≠ ascii "ex" →
      opt.map to_lower_byte ≠ ascii "px" →
      set_command_parse
          (.Array (e0 :: .BulkString k :: .BulkString v :: .BulkString opt :: e4 :: rest)) =
        .ok (k, v, 0) := by
  intro e0 k v opt e4 rest hex hpx
  have hlen : ¬ ((e0 :: RedisType.BulkString k :: RedisType.BulkString v ::
      RedisType.BulkString opt :: e4 :: rest).length < 3) := by
    simp [List.length]
  have hlen5 : 5 ≤ (e0 :: RedisType.BulkString k :: RedisType.BulkString v ::
      RedisType.BulkString opt :: e4 :: rest).length := by
    simp [List.length]
  cases e4 <;>
    simp [set_command_parse, hlen, hlen5, hex, hpx]

/-- Witness for C10: the option token KEEPTTL is neither EX nor PX, so
the parse succeeds with TTL zero. -/
theorem C10_witness :
    ((ascii "KEEPTTL").map to_lower_byte ≠ ascii "ex") ∧
    ((ascii "KEEPTTL").map to_lower_byte ≠ ascii "px") ∧
    set_command_parse
        (.Array [.BulkString (ascii "SET"), .BulkString (ascii "key"),
          .BulkString (ascii "val"), .BulkString (ascii "KEEPTTL"),
          .BulkString (ascii "junk")]) =
      .ok (ascii "key", ascii "val", 0) :=
  ⟨by decide, by decide,
    C10_set_unknown_option_silently_ignored (.BulkString (ascii "SET")) (ascii "key")
      (ascii "val") (ascii "KEEPTTL") (.BulkString (ascii "junk")) [] (by decide) (by decide)⟩

/-- Tasks transformed by an identity-and-key-preserving map that leaves
live images untouched keep the id bound, id uniqueness, and trace every
live image back to an equal live original. -/
theorem map_task_facts (f : TtlTask → TtlTask)
    (hid : ∀ u, (f u).id = u.id) (hlive : ∀ u, task_live (f u) → f u = u)
    (ts : List TtlTask) (N : Nat)
    (h1 : ∀ t ∈ ts, t.id < N)
    (h2 : ∀ t1 ∈ ts, ∀ t2 ∈ ts, t1.id = t2.id → t1 = t2) :
    (∀ t ∈ ts.map f, t.id < N) ∧
    (∀ t1 ∈ ts.map f, ∀ t2 ∈ ts.map f, t1.id = t2.id → t1 = t2) ∧
    (∀ t ∈ ts.map f, task_live t → t ∈ ts ∧ task_live t) := by
  refine ⟨?_, ?_, ?_⟩
  · intro t ht
    obtain ⟨u, hu, rfl⟩ := List.mem_map.mp ht
    rw [hid]
    exact h1 u hu
  · intro t1 ht1 t2 ht2 heq
    obtain ⟨u1, hu1, rfl⟩ := List.mem_map.mp ht1
    obtain ⟨u2, hu2, rfl⟩ := List.mem_map.mp ht2
    rw [hid, hid] at heq
    rw [h2 u1 hu1 u2 hu2 heq]
  · intro t ht hl
    obtain ⟨u, hu, rfl⟩ := List.mem_map.mp ht
    rw [hlive u hl]
    rw [hlive u hl] at hl
    exact ⟨hu, hl⟩

/-- The abort_task map preserves task identity. -/
theorem abort_task_id (h : Nat) (u : TtlTask) :
    (if u.id = h then { u with aborted := true } else u).id = u.id := by
  split <;> rfl

/-- A live image under the abort_task map is the unchanged original. -/
theorem abort_task_live (h : Nat) (u : TtlTask)
    (hl : task_live (if u.id = h then { u with aborted := true } else u)) :
    (if u.id = h then { u with aborted := true } else u) = u := by
  by_cases hc : u.id = h
  · rw [if_pos hc] at hl
    simp [task_live] at hl
  · rw [if_neg hc]

/-- The fired-marking map preserves task identity. -/
theorem mark_fired_id (h : Nat) (u : TtlTask) :
    (if u.id = h then { u with fired := true } else u).id = u.id := by
  split <;> rfl

/-- A live image under the fired-marking map is the unchanged original. -/
theorem mark_fired_live (h : Nat) (u : TtlTask)
    (hl : task_live (if u.id = h then { u with fired := true } else u)) :
    (if u.id = h then { u with fired := true } else u) = u := by
  by_cases hc : u.id = h
  · rw [if_pos hc] at hl
    simp [task_live] at hl
  · rw [if_neg hc]

/-- find? skips a left part on which the predicate is false. -/
theorem find?_append_of_none {α : Type} (p : α → Bool) (l1 l2 : List α)
    (h : ∀ x ∈ l1, p x = false) : (l1 ++ l2).find? p = l2.find? p := by
  have h1 : l1.find? p = none :=
    List.find?_eq_none.mpr (fun a ha => by simp [h a ha])
  rw [List.find?_append, h1]
  rfl

/-- The record produced by set_storage_handle when a TTL is armed. -/
theorem set_storage_handle_pos (k v : String) (e : Nat) (s : ShardTtlState) (he : 0 < e) :
    set_storage_handle k v e s =
      { map := shard_put s.map k (some (.Str v))
        ttl_tasks := fun k2 => if k2 = k then some s.next_id else
          (fun k3 => if k3 = k then none else s.ttl_tasks k3) k2
        tasks := (match s.ttl_tasks k with
          | some h => abort_task h s.tasks
          | none => s.tasks) ++ [⟨s.next_id, k, false, false⟩]
        next_id := s.next_id + 1 } := by
  simp only [set_storage_handle]
  rw [if_pos he]

/-- Facts about the tasks list after the cancel step of
set_storage_handle: ids stay below the fresh counter, ids stay unique,
live tasks are unchanged originals, and the previously registered
handle (when any) is aborted. -/
theorem cancel_step_facts (s : ShardTtlState) (k : String)
    (i1 : ∀ t ∈ s.tasks, t.id < s.next_id)
    (i2 : ∀ t1 ∈ s.tasks, ∀ t2 ∈ s.tasks, t1.id = t2.id → t1 = t2) :
    ∃ ts1, (match s.ttl_tasks k with
        | some h => abort_task h s.tasks
        | none => s.tasks) = ts1 ∧
      (∀ t ∈ ts1, t.id < s.next_id) ∧
      (∀ t1 ∈ ts1, ∀ t2 ∈ ts1, t1.id = t2.id → t1 = t2) ∧
      (∀ t ∈ ts1, task_live t → t ∈ s.tasks ∧ task_live t) ∧
      (∀ h2, s.ttl_tasks k = some h2 → ∀ t ∈ ts1, t.id = h2 → t.aborted = true) := by
  cases hreg : s.ttl_tasks k with
  | none =>
    refine ⟨s.tasks, rfl, i1, i2, fun t ht hl => ⟨ht, hl⟩, ?_⟩
    intro h2 habs
    simp at habs
  | some h =>
    have hfacts := map_task_facts (fun u => if u.id = h then { u with aborted := true } else u)
      (abort_task_id h) (abort_task_live h) s.tasks s.next_id i1 i2
    refine ⟨abort_task h s.tasks, rfl, hfacts.1, hfacts.2.1, hfacts.2.2, ?_⟩
    intro h2 hh2 t ht hid
    have hh2' : h2 = h := (Option.some.inj hh2).symm
    obtain ⟨u, hu, rfl⟩ := List.mem_map.mp ht
    by_cases hc : u.id = h
    · rw [if_pos hc]
    · rw [if_neg hc] at hid ⊢
      exact absurd (hid.trans hh2') hc

/-- Claim C7 counterexample: the spawned expiration task removes the
key from the map but leaves the registered handle in ttl_tasks, so the
claimed removal of both is false at this concrete run (one SET of k
with a 100 ms TTL, then the expiration fires). -/
theorem C7_expiry_leaves_stale_ttl_entry :
    (fire_expiration 0 (set_storage_handle "k" "v" 100 ttl_init)).map "k" = none ∧
    (fire_expiration 0 (set_storage_handle "k" "v" 100 ttl_init)).ttl_tasks "k" = some 0 ∧
    (fire_expiration 0 (set_storage_handle "k" "v" 100 ttl_init)).ttl_tasks "k" ≠ none := by
  refine ⟨rfl, rfl, by decide⟩

/-- Claim C7 (amended): for every SET with positive expiration_ms the
handler registers exactly one fresh TTL handle for the key after
cancelling any previously registered one; the TTL invariant (at most
one live TTL task per key) is preserved; and the spawned expiration
task, after its sleep, removes the key from the map but leaves the
stale ttl_tasks entry in place until a later SET of the same key. -/
theorem C7_set_ttl_registration_and_expiry (s : ShardTtlState) (k v : String) (e : Nat)
    (he : 0 < e) (hinv : ttl_invariant s) :
    (set_storage_handle k v e s).ttl_tasks k = some s.next_id ∧
    (set_storage_handle k v e s).map k = some (.Str v) ∧
    (∀ h2, s.ttl_tasks k = some h2 →
      ∀ t ∈ (set_storage_handle k v e s).tasks, t.id = h2 → t.aborted = true) ∧
    ttl_invariant (set_storage_handle k v e s) ∧
    (∀ t1 ∈ (set_storage_handle k v e s).tasks, ∀ t2 ∈ (set_storage_handle k v e s).tasks,
      task_live t1 → task_live t2 → t1.key = t2.key → t1 = t2) ∧
    (fire_expiration s.next_id (set_storage_handle k v e s)).map k = none ∧
    (fire_expiration s.next_id (set_storage_handle k v e s)).ttl_tasks k = some s.next_id ∧
    ttl_invariant (fire_expiration s.next_id (set_storage_handle k v e s)) := by
  obtain ⟨i1, i2, i3, i4⟩ := hinv
  obtain ⟨ts1, heq, hb1, hb2, hb3, hb4⟩ := cancel_step_facts s k i1 i2
  have hrec : set_storage_handle k v e s =
      { map := shard_put s.map k (some (.Str v))
        ttl_tasks := fun k2 => if k2 = k then some s.next_id else
          (fun k3 => if k3 = k then none else s.ttl_tasks k3) k2
        tasks := ts1 ++ [⟨s.next_id, k, false, false⟩]
        next_id := s.next_id + 1 } := by
    rw [set_storage_handle_pos k v e s he, heq]
  -- the fresh task
  have hmem_new : (⟨s.next_id, k, false, false⟩ : TtlTask) ∈ ts1 ++ [⟨s.next_id, k, false, false⟩] := by
    simp
  -- invariant of the post-SET state
  have hinv1 : ttl_invariant (set_storage_handle k v e s) := by
    rw [hrec]
    refine ⟨?_, ?_, ?_, ?_⟩
    · intro t ht
      rcases List.mem_append.mp ht with hl | hr
      · exact Nat.lt_succ_of_lt (hb1 t hl)
      · simp at hr
        rw [hr]
        exact Nat.lt_succ_self _
    · intro t1 ht1 t2 ht2 hid
      rcases List.mem_append.mp ht1 with hl1 | hr1 <;>
        rcases List.mem_append.mp ht2 with hl2 | hr2
      · exact hb2 t1 hl1 t2 hl2 hid
      · simp at hr2
        rw [hr2] at hid
        exact absurd hid (Nat.ne_of_lt (hb1 t1 hl1))
      · simp at hr1
        rw [hr1] at hid
        exact absurd hid.symm (Nat.ne_of_lt (hb1 t2 hl2))
      · simp at hr1 hr2
        rw [hr1, hr2]
    · intro t ht hl
      rcases List.mem_append.mp ht with hmem | hmem
      · obtain ⟨hts, hlt⟩ := hb3 t hmem hl
        have hpt := i3 t hts hlt
        by_cases hk : t.key = k
        · exfalso
          rw [hk] at hpt
          have hab := hb4 t.id hpt t hmem rfl
          have hl1 := hl.1
          rw [hab] at hl1
          simp at hl1
        · simp only [hk, if_neg hk]
          simpa [hk] using hpt
      · simp at hmem
        rw [hmem]
        simp
    · intro k2 h2 hk2
      show h2 < s.next_id + 1
      by_cases hk : k2 = k
      · simp only [hk, if_pos rfl] at hk2
        have := Option.some.inj hk2
        omega
      · simp only [if_neg hk] at hk2
        exact Nat.lt_succ_of_lt (i4 k2 h2 hk2)
  -- evaluation of the expiration task
  have hfind : ((set_storage_handle k v e s).tasks).find?
      (fun t => t.id = s.next_id) = some ⟨s.next_id, k, false, false⟩ := by
    rw [hrec]
    rw [find?_append_of_none _ ts1 _ (fun t ht => by
      have := hb1 t ht
      simp
      omega)]
    simp [List.find?]
  have hfire : fire_expiration s.next_id (set_storage_handle k v e s) =
      { map := shard_put (set_storage_handle k v e s).map k none
        ttl_tasks := (set_storage_handle k v e s).ttl_tasks
        tasks := (set_storage_handle k v e s).tasks.map
          (fun u => if u.id = s.next_id then { u with fired := true } else u)
        next_id := (set_storage_handle k v e s).next_id } := by
    rw [fire_expiration, hfind]
    dsimp only
    rw [if_neg (by simp)]
  refine ⟨?_, ?_, ?_, hinv1, ?_, ?_, ?_, ?_⟩
  · rw [hrec]
    simp
  · rw [hrec]
    simp [shard_put]
  · intro h2 hh2 t ht hid
    rw [hrec] at ht
    rcases List.mem_append.mp ht with hl | hr
    · exact hb4 h2 hh2 t hl hid
    · simp at hr
      rw [hr] at hid
      simp at hid
      have := i4 k h2 hh2
      omega
  · -- at most one live task per key
    intro t1 ht1 t2 ht2 hl1 hl2 hkey
    obtain ⟨j1, j2, j3, j4⟩ := hinv1
    have p1 := j3 t1 ht1 hl1
    have p2 := j3 t2 ht2 hl2
    rw [hkey] at p1
    have hid := Option.some.inj (p1.symm.trans p2)
    exact j2 t1 ht1 t2 ht2 hid
  · rw [hfire]
    simp [shard_put]
  · rw [hfire]
    rw [hrec]
    simp
  · obtain ⟨j1, j2, j3, j4⟩ := hinv1
    have hfacts := map_task_facts
      (fun u => if u.id = s.next_id then { u with fired := true } else u)
      (mark_fired_id s.next_id) (mark_fired_live s.next_id)
      (set_storage_handle k v e s).tasks (set_storage_handle k v e s).next_id j1 j2
    rw [hfire]
    refine ⟨hfacts.1, hfacts.2.1, ?_, j4⟩
    intro t ht hl
    obtain ⟨hts, hlt⟩ := hfacts.2.2 t ht hl
    exact j3 t hts hlt

/-- Witness for C7 at the empty shard state: one SET of k with a 100 ms
TTL, then the expiration of the fresh task with handle 0. -/
theorem C7_witness :
    0 < 100 ∧ ttl_invariant ttl_init ∧
      ((set_storage_handle "k" "v" 100 ttl_init).ttl_tasks "k" = some ttl_init.next_id ∧
       (set_storage_handle "k" "v" 100 ttl_init).map "k" = some (.Str "v") ∧
       (∀ h2, ttl_init.ttl_tasks "k" = some h2 →
         ∀ t ∈ (set_storage_handle "k" "v" 100 ttl_init).tasks, t.id = h2 → t.aborted = true) ∧
       ttl_invariant (set_storage_handle "k" "v" 100 ttl_init) ∧
       (∀ t1 ∈ (set_storage_handle "k" "v" 100 ttl_init).tasks,
         ∀ t2 ∈ (set_storage_handle "k" "v" 100 ttl_init).tasks,
           task_live t1 → task_live t2 → t1.key = t2.key → t1 = t2) ∧
       (fire_expiration ttl_init.next_id (set_storage_handle "k" "v" 100 ttl_init)).map "k" =
         none ∧
       (fire_expiration ttl_init.next_id (set_storage_handle "k" "v" 100 ttl_init)).ttl_tasks
         "k" = some ttl_init.next_id ∧
       ttl_invariant (fire_expiration ttl_init.next_id (set_storage_handle "k" "v" 100 ttl_init))) :=
  ⟨by decide,
   by
     refine ⟨?_, ?_, ?_, ?_⟩ <;> simp [ttl_init]
   ,
   C7_set_ttl_registration_and_expiry ttl_init "k" "v" 100 (by decide)
     (by refine ⟨?_, ?_, ?_, ?_⟩ <;> simp [ttl_init])⟩

/-- Appending one byte multiplies the accumulated digit value by ten. -/
theorem digits_val_append_singleton (xs : List Nat) (d : Nat) :
    digits_val (xs ++ [d]) = digits_val xs * 10 + (d - 48) := by
  simp [digits_val, List.foldl_append]

/-- With fuel above the number, the digit loop produces a non-empty,
all-digit list whose value is the number itself. -/
theorem nat_digits_go_spec : ∀ fuel n, n < fuel →
    nat_digits_go fuel n ≠ [] ∧ (∀ b ∈ nat_digits_go fuel n, 48 ≤ b ∧ b ≤ 57) ∧
      digits_val (nat_digits_go fuel n) = n := by
  intro fuel
  induction fuel with
  | zero => intro n hn; omega
  | succ f ih =>
    intro n hn
    by_cases h10 : n < 10
    · refine ⟨by simp [nat_digits_go, h10], ?_, ?_⟩
      · intro b hb
        simp [nat_digits_go, h10] at hb
        omega
      · simp [nat_digits_go, h10, digits_val]
    · have hdiv : n / 10 < f := by
        have := Nat.div_lt_self (by omega : 0 < n) (by omega : 1 < 10)
        omega
      obtain ⟨hne, hdig, hval⟩ := ih (n / 10) hdiv
      refine ⟨by simp [nat_digits_go, h10], ?_, ?_⟩
      · intro b hb
        simp only [nat_digits_go, if_neg h10, List.mem_append, List.mem_singleton] at hb
        rcases hb with hb | hb
        · exact hdig b hb
        · have := Nat.mod_lt n (by omega : 0 < 10)
          omega
      · simp only [nat_digits_go, if_neg h10]
        rw [digits_val_append_singleton, hval]
        have := Nat.mod_lt n (by omega : 0 < 10)
        have := Nat.div_add_mod n 10
        omega

/-- nat_digits is non-empty, all digits, and evaluates to its input. -/
theorem nat_digits_spec (n : Nat) :
    nat_digits n ≠ [] ∧ (∀ b ∈ nat_digits n, 48 ≤ b ∧ b ≤ 57) ∧
      digits_val (nat_digits n) = n :=
  nat_digits_go_spec (n + 1) n (Nat.lt_succ_self n)

/-- parse_unsigned_dec accepts any non-empty all-digit list. -/
theorem parse_unsigned_dec_of_digits (l : List Nat) (hne : l ≠ [])
    (hd : ∀ b ∈ l, 48 ≤ b ∧ b ≤ 57) :
    parse_unsigned_dec l = some (digits_val l) := by
  have hone : l.isEmpty = false := by
    cases l with
    | nil => exact absurd rfl hne
    | cons a t => rfl
  have hall : l.all is_digit_byte = true := by
    rw [List.all_eq_true]
    intro b hb
    have := hd b hb
    simp [is_digit_byte]
    omega
  simp [parse_unsigned_dec, hone, hall]

/-- parse_unsigned_dec inverts nat_digits. -/
theorem parse_unsigned_dec_nat_digits (n : Nat) :
    parse_unsigned_dec (nat_digits n) = some n := by
  obtain ⟨hne, hdig, hval⟩ := nat_digits_spec n
  rw [parse_unsigned_dec_of_digits _ hne hdig, hval]

/-- parse_signed_dec inverts nat_digits (the head is a digit byte, so
neither sign branch fires). -/
theorem parse_signed_dec_nat_digits (n : Nat) :
    parse_signed_dec (nat_digits n) = some (n : Int) := by
  obtain ⟨hne, hdig, hval⟩ := nat_digits_spec n
  rcases hl : nat_digits n with _ | ⟨c, t⟩
  · exact absurd hl hne
  · have hc := hdig c (by rw [hl]; simp)
    have hc43 : ¬ (c = 43) := by omega
    have hc45 : ¬ (c = 45) := by omega
    rw [parse_signed_dec, if_neg hc43, if_neg hc45]
    rw [← hl, parse_unsigned_dec_nat_digits n]
    rfl

/-- parse_i64 inverts nat_digits for lengths in the signed 64 range. -/
theorem parse_i64_nat_digits (n : Nat) (h : (n : Int) ≤ 9223372036854775807) :
    parse_i64 (nat_digits n) = some (n : Int) := by
  have hlo : (-9223372036854775808 : Int) ≤ (n : Int) := by omega
  rw [parse_i64, parse_signed_dec_nat_digits n]
  simp [hlo, h]

/-- parse_i32 inverts int_digits for values in the signed 32 range. -/
theorem parse_i32_int_digits (i : Int) (hlo : -2147483648 ≤ i) (hhi : i ≤ 2147483647) :
    parse_i32 (int_digits i) = some i := by
  by_cases hneg : i < 0
  · have habs : -((i.natAbs : Nat) : Int) = i := by omega
    rw [int_digits, if_pos hneg, parse_i32, parse_signed_dec]
    rw [if_neg (by omega), if_pos rfl]
    rw [parse_unsigned_dec_nat_digits]
    simp [habs, abs_of_neg hneg]
    omega
  · have htn : ((i.toNat : Nat) : Int) = i := by omega
    rw [int_digits, if_neg hneg, parse_i32, parse_signed_dec_nat_digits]
    simp [htn, hlo, hhi]

/-- A list without the CR byte is CR LF free. -/
theorem crlf_free_of_no_cr (l : List Nat) (h : ∀ b ∈ l, b ≠ 13) :
    crlf_free l = true := by
  induction l with
  | nil => rfl
  | cons a t ih =>
    cases t with
    | nil => rfl
    | cons b r =>
      have ha : a ≠ 13 := h a (by simp)
      rw [crlf_free, if_neg (by omega)]
      exact ih (fun x hx => h x (by simp [hx]))

/-- Digit lists carry no CR byte. -/
theorem crlf_free_nat_digits (n : Nat) : crlf_free (nat_digits n) = true := by
  obtain ⟨_, hdig, _⟩ := nat_digits_spec n
  exact crlf_free_of_no_cr _ (fun b hb => by have := hdig b hb; omega)

/-- Integer renderings carry no CR byte. -/
theorem crlf_free_int_digits (i : Int) : crlf_free (int_digits i) = true := by
  rw [int_digits]
  split
  · obtain ⟨_, hdig, _⟩ := nat_digits_spec i.natAbs
    refine crlf_free_of_no_cr _ ?_
    intro b hb
    simp at hb
    rcases hb with hb | hb
    · omega
    · have := hdig b hb
      omega
  · exact crlf_free_nat_digits _

/-- consume_part fails exactly on CR LF free lists. -/
theorem consume_part_none_iff (l : List Nat) :
    consume_part l = none ↔ crlf_free l = true := by
  induction l with
  | nil => simp [consume_part, crlf_free]
  | cons a t ih =>
    cases t with
    | nil => simp [consume_part, crlf_free]
    | cons b r =>
      by_cases hp : a = 13 ∧ b = 10
      · simp [consume_part, crlf_free, hp]
      · rw [consume_part, if_neg hp, crlf_free, if_neg hp]
        rw [← ih]
        cases consume_part (b :: r) <;> simp

/-- A successful consume_part splits the list at the first CR LF. -/
theorem consume_part_some_decomp (l v r : List Nat)
    (h : consume_part l = some (v, r)) :
    l = v ++ 13 :: 10 :: r ∧ crlf_free v = true := by
  induction l generalizing v with
  | nil => simp [consume_part] at h
  | cons a t ih =>
    cases t with
    | nil => simp [consume_part] at h
    | cons b rr =>
      by_cases hp : a = 13 ∧ b = 10
      · rw [consume_part, if_pos hp] at h
        simp only [Option.some.injEq, Prod.mk.injEq] at h
        obtain ⟨hv, hr⟩ := h
        subst hv
        subst hr
        exact ⟨by simp [hp.1, hp.2], rfl⟩
      · rw [consume_part, if_neg hp] at h
        cases hin : consume_part (b :: rr) with
        | none =>
          rw [hin, Option.map_none'] at h
          simp at h
        | some vr =>
          rw [hin] at h
          simp only [Option.map_some', Option.some.injEq] at h
          obtain ⟨v', r'⟩ := vr
          have hv : v = a :: v' := by
            have := congrArg Prod.fst h.symm
            simpa using this
          have hr : r' = r := by
            have := congrArg Prod.snd h
            simpa using this
          obtain ⟨hdec, hfree⟩ := ih v' (by rw [hr] at hin; exact hin)
          subst hv
          refine ⟨by rw [List.cons_append, hdec], ?_⟩
          cases v' with
          | nil => rfl
          | cons c v'' =>
            have hbc : b = c := by
              have := hdec
              simp at this
              exact this.1
            rw [crlf_free, if_neg (by rw [hbc] at hp; exact hp)]
            exact hfree

/-- consume_part recovers a CR LF free part from its framing. -/
theorem consume_part_resplit (v r : List Nat) (hfree : crlf_free v = true) :
    consume_part (v ++ 13 :: 10 :: r) = some (v, r) := by
  induction v with
  | nil => simp [consume_part]
  | cons a t ih =>
    cases t with
    | nil =>
      simp [consume_part]
    | cons c t' =>
      have hp : ¬ (a = 13 ∧ c = 10) := by
        intro hc
        rw [crlf_free, if_pos hc] at hfree
        exact absurd hfree (by simp)
      have hfree' : crlf_free (c :: t') = true := by
        rw [crlf_free, if_neg hp] at hfree
        exact hfree
      have ih2 := ih hfree'
      simp only [List.cons_append] at ih2 ⊢
      simp only [consume_part]
      rw [if_neg hp, ih2]
      rfl

mutual
/-- Frames whose encodings the parser can read back: only the frame
kinds with a parser branch (no SimpleError, InvalidType or Null, whose
encodings start with a byte the parser panics on), string payloads free
of CR LF (the parser reads payloads only up to the first CR LF), the
32-bit integer range the Rust i32 payload guarantees, and the signed
64-bit length ranges the Rust usize lengths guarantee. -/
def wf_frame : RedisType → Bool
  | .SimpleString s => crlf_free s
  | .BulkString s => crlf_free s && decide (s.length ≤ 9223372036854775807)
  | .NullBulkString => true
  | .Array es => decide (es.length ≤ 9223372036854775807) && wf_frame_list es
  | .NullArray => true
  | .Integer i => decide (-2147483648 ≤ i) && decide (i ≤ 2147483647)
  | .InvalidType _ => false
  | .SimpleError _ => false
  | .Null => false

/-- All frames of a list are well formed. -/
def wf_frame_list : List RedisType → Bool
  | [] => true
  | f :: fs => wf_frame f && wf_frame_list fs
end

/-- Every encoding is non-empty (it starts with its marker byte). -/
theorem to_resp_bytes_length_pos (f : RedisType) : 0 < (to_resp_bytes f).length := by
  cases f <;> simp [to_resp_bytes]

/-- Membership form of wf_frame_list. -/
theorem wf_frame_list_mem (es : List RedisType) (h : wf_frame_list es = true) :
    ∀ f ∈ es, wf_frame f = true := by
  induction es with
  | nil => intro f hf; simp at hf
  | cons a t ih =>
    rw [wf_frame_list, Bool.and_eq_true] at h
    intro f hf
    rcases List.mem_cons.mp hf with rfl | hf
    · exact h.1
    · exact ih h.2 f hf

/-- Parsing the concatenated encodings of a list of frames as that many
array elements returns exactly those frames with the tail untouched,
given that each element encoding parses back to its frame. -/
theorem parse_elems_of_encodings :
    ∀ (es : List RedisType) (u : List Nat) (g : Nat),
      (∀ f ∈ es, ∀ u2 g2, 2 * (to_resp_bytes f).length + 2 * u2.length + 1 ≤ g2 →
        parse_go g2 (.frame (to_resp_bytes f ++ u2)) = .okF f u2) →
      2 * (to_resp_bytes_list es).length + 2 * u.length + 2 ≤ g →
      parse_go g (.elems es.length (to_resp_bytes_list es ++ u)) = .okE es u := by
  intro es
  induction es with
  | nil =>
    intro u g _ hg
    obtain ⟨g2, rfl⟩ : ∃ g2, g = g2 + 1 := ⟨g - 1, by omega⟩
    simp [to_resp_bytes_list, parse_go]
  | cons f fs ih =>
    intro u g helem hg
    have hlen : (to_resp_bytes_list (f :: fs)).length =
        (to_resp_bytes f).length + (to_resp_bytes_list fs).length := by
      simp [to_resp_bytes_list]
    have hfpos := to_resp_bytes_length_pos f
    obtain ⟨g2, rfl⟩ : ∃ g2, g = g2 + 1 := ⟨g - 1, by omega⟩
    have hbuf : to_resp_bytes_list (f :: fs) ++ u =
        to_resp_bytes f ++ (to_resp_bytes_list fs ++ u) := by
      simp [to_resp_bytes_list]
    have hhead := helem f (by simp) (to_resp_bytes_list fs ++ u) g2
      (by simp; omega)
    have htail := ih u g2
      (fun f2 hf2 => helem f2 (by simp [hf2]))
      (by omega)
    show parse_go (g2 + 1) (.elems (fs.length + 1) (to_resp_bytes_list (f :: fs) ++ u)) =
      .okE (f :: fs) u
    rw [hbuf]
    simp only [parse_go]
    rw [hhead]
    dsimp only
    rw [htail]

/-- Parsing the encoding of a well formed frame followed by any tail
returns exactly that frame with the tail untouched, at any fuel margin
of at least one above twice the encoded length plus tail length. -/
theorem parse_of_encoding : ∀ (N : Nat) (f : RedisType), sizeOf f ≤ N → wf_frame f = true →
    ∀ u g, 2 * (to_resp_bytes f).length + 2 * u.length + 1 ≤ g →
      parse_go g (.frame (to_resp_bytes f ++ u)) = .okF f u := by
  intro N
  induction N using Nat.strong_induction_on with
  | _ N ih =>
    intro f hsz hwf u g hg
    obtain ⟨g2, rfl⟩ : ∃ g2, g = g2 + 1 := ⟨g - 1, by omega⟩
    cases f with
    | SimpleString s =>
      rw [wf_frame] at hwf
      have hcp := consume_part_resplit s u hwf
      simp only [to_resp_bytes, crlf, List.cons_append, List.append_assoc, List.nil_append]
      simp [parse_go, hcp]
    | Integer i =>
      rw [wf_frame, Bool.and_eq_true, decide_eq_true_eq, decide_eq_true_eq] at hwf
      have hcp := consume_part_resplit (int_digits i) u (crlf_free_int_digits i)
      have hpi := parse_i32_int_digits i hwf.1 hwf.2
      simp only [to_resp_bytes, crlf, List.cons_append, List.append_assoc, List.nil_append]
      simp [parse_go, hcp, hpi]
    | BulkString s =>
      rw [wf_frame, Bool.and_eq_true, decide_eq_true_eq] at hwf
      obtain ⟨hfree, hslen⟩ := hwf
      have hcp1 := consume_part_resplit (nat_digits s.length) (s ++ 13 :: 10 :: u)
        (crlf_free_nat_digits s.length)
      have hcp2 := consume_part_resplit s u hfree
      have hpi := parse_i64_nat_digits s.length (by omega)
      have hne1 : ¬ ((s.length : Int) = -1) := by omega
      have hnlt : ¬ ((s.length : Int) < 0) := by omega
      simp only [to_resp_bytes, crlf, List.cons_append, List.append_assoc, List.nil_append]
      simp [parse_go, hcp1, hpi, hne1, hnlt, hcp2]
    | NullBulkString =>
      have hcp : consume_part (45 :: 49 :: 13 :: 10 :: u) = some ([45, 49], u) := by
        have := consume_part_resplit [45, 49] u (by decide)
        simpa using this
      simp only [to_resp_bytes, List.cons_append, List.nil_append]
      simp [parse_go, hcp, show parse_i64 [45, 49] = some (-1) from by decide]
    | NullArray =>
      have hcp : consume_part (45 :: 49 :: 13 :: 10 :: u) = some ([45, 49], u) := by
        have := consume_part_resplit [45, 49] u (by decide)
        simpa using this
      simp only [to_resp_bytes, List.cons_append, List.nil_append]
      simp [parse_go, hcp, show parse_i64 [45, 49] = some (-1) from by decide]
    | Array es =>
      rw [wf_frame, Bool.and_eq_true, decide_eq_true_eq] at hwf
      obtain ⟨hlenb, hwfl⟩ := hwf
      have hone : 1 ≤ sizeOf (RedisType.Array es) := by
        cases es <;> simp
      have hszes : sizeOf es < N := by
        have hx : sizeOf (RedisType.Array es) = 1 + sizeOf es := by simp
        omega
      have helem : ∀ f2 ∈ es, ∀ u2 g3,
          2 * (to_resp_bytes f2).length + 2 * u2.length + 1 ≤ g3 →
          parse_go g3 (.frame (to_resp_bytes f2 ++ u2)) = .okF f2 u2 := by
        intro f2 hf2
        have hs2 : sizeOf f2 < sizeOf es := List.sizeOf_lt_of_mem hf2
        exact ih (sizeOf f2) (by omega) f2 (le_refl _) (wf_frame_list_mem es hwfl f2 hf2)
      have hb : (to_resp_bytes (RedisType.Array es)).length =
          1 + ((nat_digits es.length).length + 2 + (to_resp_bytes_list es).length) := by
        simp [to_resp_bytes, crlf]
        omega
      have hcp := consume_part_resplit (nat_digits es.length) (to_resp_bytes_list es ++ u)
        (crlf_free_nat_digits es.length)
      have hpi := parse_i64_nat_digits es.length (by omega)
      have hel : parse_go g2 (.elems es.length (to_resp_bytes_list es ++ u)) = .okE es u := by
        apply parse_elems_of_encodings es u g2 helem
        omega
      have ht : ((es.length : Int)).toNat = es.length := by omega
      have hne1 : ¬ ((es.length : Int) = -1) := by omega
      have hnlt : ¬ ((es.length : Int) < 0) := by omega
      simp only [to_resp_bytes, crlf, List.cons_append, List.append_assoc, List.nil_append]
      simp [parse_go, hcp, hpi, hne1, hnlt, ht, hel]
    | InvalidType m => simp [wf_frame] at hwf
    | SimpleError m => simp [wf_frame] at hwf
    | Null => simp [wf_frame] at hwf

/-- Claim C2 counterexample: round-tripping fails for two of the frame
kinds the claim quantifies over.  The encoding of a simple error starts
with the minus marker, which the parser panics on; and a bulk string
whose payload contains CR LF is re-parsed only up to the first CR LF,
with fewer bytes consumed than the whole encoding. -/
theorem C2_roundtrip_counterexample :
    try_parse_frame (to_resp_bytes (.SimpleError (ascii "oops"))) = .panicked ∧
    try_parse_frame (to_resp_bytes (.SimpleError (ascii "oops"))) ≠
      .ok (.SimpleError (ascii "oops")) (to_resp_bytes (.SimpleError (ascii "oops"))).length ∧
    try_parse_frame (to_resp_bytes (.BulkString (ascii "a\r\nb"))) =
      .ok (.BulkString (ascii "a")) 7 ∧
    try_parse_frame (to_resp_bytes (.BulkString (ascii "a\r\nb"))) ≠
      .ok (.BulkString (ascii "a\r\nb")) (to_resp_bytes (.BulkString (ascii "a\r\nb"))).length := by
  have h1 : to_resp_bytes (.SimpleError (ascii "oops")) = ascii "-oops\r\n" := by
    simp only [to_resp_bytes]
    rfl
  have h2 : to_resp_bytes (.BulkString (ascii "a\r\nb")) = ascii "$4\r\na\r\nb\r\n" := by
    simp only [to_resp_bytes]
    rfl
  have p1 : try_parse_frame (ascii "-oops\r\n") = .panicked := rfl
  have p2 : try_parse_frame (ascii "$4\r\na\r\nb\r\n") = .ok (.BulkString (ascii "a")) 7 := rfl
  refine ⟨by rw [h1, p1], ?_, by rw [h2, p2], ?_⟩
  · rw [h1, p1]
    intro h
    exact FrameParse.noConfusion h
  · rw [h2, p2]
    intro h
    have h3 := (FrameParse.ok.inj h).2
    simp [ascii] at h3
/-- Claim C2 (amended): the round trip parse(encode(f)) = f with the
whole encoding consumed holds for every frame built from SimpleString,
BulkString, NullBulkString, Array, NullArray and Integer whose string
payloads contain no CR LF pair (with the Rust-guaranteed i32 and length
ranges); SimpleError, InvalidType and Null frames are excluded, their
minus or underscore marker having no parser branch. -/
theorem C2_roundtrip_wf (f : RedisType) (hwf : wf_frame f = true) :
    try_parse_frame (to_resp_bytes f) = .ok f (to_resp_bytes f).length := by
  have hpos := to_resp_bytes_length_pos f
  have hne : (to_resp_bytes f).isEmpty = false := by
    cases hb : to_resp_bytes f with
    | nil => rw [hb] at hpos; simp at hpos
    | cons a t => rfl
  have hp := parse_of_encoding (sizeOf f) f (le_refl _) hwf []
    (2 * (to_resp_bytes f).length + 2) (by simp)
  rw [List.append_nil] at hp
  rw [try_parse_frame, if_neg (by simp [hne]), hp]
  simp

/-- Sample frame exercising every well formed constructor for the C2
witness. -/
def c2_sample_frame : RedisType :=
  .Array [.BulkString (ascii "ab"), .Integer (-7), .NullBulkString,
    .Array [.SimpleString (ascii "x")], .NullArray]

/-- Witness for C2 at a concrete nested frame. -/
theorem C2_witness :
    wf_frame c2_sample_frame = true ∧
      try_parse_frame (to_resp_bytes c2_sample_frame) =
        .ok c2_sample_frame (to_resp_bytes c2_sample_frame).length :=
  ⟨by simp [c2_sample_frame, wf_frame, wf_frame_list, crlf_free, ascii],
   C2_roundtrip_wf c2_sample_frame
     (by simp [c2_sample_frame, wf_frame, wf_frame_list, crlf_free, ascii])⟩

/-- parse_signed_dec accepts a bare non-empty digit string. -/
theorem parse_signed_dec_of_digits (ds : List Nat) (hne : ds ≠ [])
    (hd : ∀ d ∈ ds, 48 ≤ d ∧ d ≤ 57) :
    parse_signed_dec ds = some ((digits_val ds : Nat) : Int) := by
  rcases hds : ds with _ | ⟨c, t⟩
  · exact absurd hds hne
  · have hc := hd c (by rw [hds]; simp)
    rw [parse_signed_dec, if_neg (by omega), if_neg (by omega)]
    rw [← hds, parse_unsigned_dec_of_digits ds hne hd]
    rfl

/-- Claim C9 counterexample: the input line colon 2147483648 CR LF is a
signed decimal that fits in signed 64 bits, yet the parser yields an
Invalid frame, not an Integer frame (the source parses with i32). -/
theorem C9_signed64_integer_rejected :
    try_parse_frame (ascii ":2147483648\r\n") =
      .ok (.InvalidType (ascii "Invalid integer 2147483648")) 13 ∧
    try_parse_frame (ascii ":2147483648\r\n") ≠ .ok (.Integer 2147483648) 13 := by
  have e : try_parse_frame (ascii ":2147483648\r\n") =
      .ok (.InvalidType (ascii "Invalid integer 2147483648")) 13 := rfl
  refine ⟨e, ?_⟩
  intro h
  rw [e] at h
  exact RedisType.noConfusion (FrameParse.ok.inj h).1

/-- Claim C9 (amended): the RESP integer frame accepts every signed
decimal with an optional leading plus or minus whose value fits in a
signed 32-bit integer; for every such input line the parser yields the
Integer frame with that value and consumes the whole line. -/
theorem C9_integer_accepts_i32_range :
    ∀ (sgn ds : List Nat), (sgn = [] ∨ sgn = [43] ∨ sgn = [45]) → ds ≠ [] →
      (∀ d ∈ ds, 48 ≤ d ∧ d ≤ 57) →
      ∀ v : Int, v = (if sgn = [45] then -(digits_val ds : Int) else (digits_val ds : Int)) →
      -2147483648 ≤ v → v ≤ 2147483647 →
      try_parse_frame (58 :: (sgn ++ ds) ++ crlf) =
        .ok (.Integer v) (sgn.length + ds.length + 3) := by
  intro sgn ds hs hne hd v hv hlo hhi
  have hfree : crlf_free (sgn ++ ds) = true := by
    apply crlf_free_of_no_cr
    intro b hb
    rcases List.mem_append.mp hb with hb | hb
    · rcases hs with rfl | rfl | rfl
      · simp at hb
      · simp at hb
        omega
      · simp at hb
        omega
    · have := hd b hb
      omega
  have hcp : consume_part (sgn ++ (ds ++ crlf)) = some (sgn ++ ds, []) := by
    have h0 := consume_part_resplit (sgn ++ ds) [] hfree
    rw [List.append_assoc] at h0
    exact h0
  have hud := parse_unsigned_dec_of_digits ds hne hd
  have hpi : parse_i32 (sgn ++ ds) = some v := by
    rcases hs with rfl | rfl | rfl
    · rw [if_neg (by simp)] at hv
      subst hv
      rw [List.nil_append, parse_i32, parse_signed_dec_of_digits ds hne hd]
      simp [hlo, hhi]
    · rw [if_neg (by simp)] at hv
      subst hv
      rw [List.cons_append, List.nil_append, parse_i32, parse_signed_dec, if_pos rfl, hud]
      simp [hlo, hhi]
    · rw [if_pos rfl] at hv
      subst hv
      rw [List.cons_append, List.nil_append, parse_i32, parse_signed_dec,
        if_neg (by omega), if_pos rfl, hud]
      simp [hlo, hhi]
  have hmain : ∀ g, (sgn ++ ds).length * 2 + 7 ≤ g →
      parse_go g (.frame (58 :: (sgn ++ (ds ++ crlf)))) = .okF (.Integer v) [] := by
    intro g hgg
    obtain ⟨g2, rfl⟩ : ∃ g2, g = g2 + 1 := ⟨g - 1, by omega⟩
    simp [parse_go, hcp, hpi]
  rw [try_parse_frame, if_neg (by simp)]
  simp only [List.cons_append, List.append_assoc]
  rw [hmain _ (by simp [crlf]; omega)]
  simp [crlf]
  omega

/-- Witness for C9 at the concrete line colon plus 42 CR LF. -/
theorem C9_witness :
    try_parse_frame (58 :: ([43] ++ ascii "42") ++ crlf) = .ok (.Integer 42) 6 :=
  C9_integer_accepts_i32_range [43] (ascii "42") (by decide) (by decide) (by decide)
    42 (by decide) (by decide) (by decide)

/-- Both halves of a CR LF free concatenation are CR LF free. -/
theorem crlf_free_append_decomp (a b : List Nat) (h : crlf_free (a ++ b) = true) :
    crlf_free a = true ∧ crlf_free b = true := by
  induction a with
  | nil => exact ⟨rfl, h⟩
  | cons x t ih =>
    cases t with
    | nil =>
      refine ⟨rfl, ?_⟩
      cases b with
      | nil => rfl
      | cons c b2 =>
        rw [List.cons_append, List.nil_append, crlf_free] at h
        by_cases hp : x = 13 ∧ c = 10
        · rw [if_pos hp] at h
          exact absurd h (by simp)
        · rw [if_neg hp] at h
          exact h
    | cons d t2 =>
      rw [List.cons_append, List.cons_append, crlf_free] at h
      by_cases hp : x = 13 ∧ d = 10
      · rw [if_pos hp] at h
        exact absurd h (by simp)
      · rw [if_neg hp] at h
        rw [← List.cons_append] at h
        obtain ⟨h1, h2⟩ := ih h
        refine ⟨?_, h2⟩
        rw [crlf_free, if_neg hp]
        exact h1

/-- A concatenation of CR LF free parts is CR LF free when the second
part does not start with LF. -/
theorem crlf_free_append_compose (a b : List Nat) (ha : crlf_free a = true)
    (hb : crlf_free b = true) (hh : b.head? ≠ some 10) :
    crlf_free (a ++ b) = true := by
  induction a with
  | nil => exact hb
  | cons x t ih =>
    cases t with
    | nil =>
      cases b with
      | nil => rfl
      | cons c b2 =>
        have hc : ¬ (x = 13 ∧ c = 10) := by
          intro hp
          exact hh (by simp [hp.2])
        rw [List.cons_append, List.nil_append, crlf_free, if_neg hc]
        exact hb
    | cons d t2 =>
      have hp : ¬ (x = 13 ∧ d = 10) := by
        intro hp
        rw [crlf_free, if_pos hp] at ha
        exact absurd ha (by simp)
      have ha2 : crlf_free (d :: t2) = true := by
        rw [crlf_free, if_neg hp] at ha
        exact ha
      rw [List.cons_append, List.cons_append, crlf_free, if_neg hp, ← List.cons_append]
      exact ih ha2

/-- The head of an append with a non-empty left part. -/
theorem head?_append_left {α : Type} (p1 p2 : List α) (h : p1 ≠ []) :
    (p1 ++ p2).head? = p1.head? := by
  cases p1 with
  | nil => exact absurd rfl h
  | cons a t => rfl

/-- Prefix characterization of a successful parse: the consumed bytes
form a non-empty prefix that does not start with LF, and re-parsing
that prefix followed by any tail (subject to the CR LF condition that
matters only for the colon branch that consumes a lone marker) yields
the same frame with exactly the tail left.  Stated for both parsing
modes and proved by induction on the fuel. -/
theorem parse_go_replay : ∀ fuel : Nat,
    (∀ buf t rest, parse_go fuel (.frame buf) = .okF t rest →
      ∃ p, buf = p ++ rest ∧ p ≠ [] ∧ p.head? ≠ some 10 ∧
        ∀ u g, 2 * p.length + 2 * u.length + 1 ≤ g →
          (crlf_free rest = true → crlf_free u = true ∧ u.head? ≠ some 10) →
          parse_go g (.frame (p ++ u)) = .okF t u) ∧
    (∀ n buf es rest, parse_go fuel (.elems n buf) = .okE es rest →
      ∃ p, buf = p ++ rest ∧ (p = [] ∨ p.head? ≠ some 10) ∧
        ∀ u g, 2 * p.length + 2 * u.length + 2 ≤ g →
          (crlf_free rest = true → crlf_free u = true ∧ u.head? ≠ some 10) →
          parse_go g (.elems n (p ++ u)) = .okE es u) := by
  intro fuel
  induction fuel with
  | zero =>
    constructor
    · intro buf t rest H
      simp [parse_go] at H
    · intro n buf es rest H
      simp [parse_go] at H
  | succ f ih =>
    obtain ⟨ihF, ihE⟩ := ih
    constructor
    · intro buf t rest H
      cases buf with
      | nil => simp [parse_go] at H
      | cons b rest0 =>
        simp only [parse_go] at H
        by_cases hb1 : b = 43
        · rw [if_pos hb1] at H
          cases hcp : consume_part rest0 with
          | none => simp [hcp] at H
          | some vr =>
            obtain ⟨v, r⟩ := vr
            simp only [hcp] at H
            injection H with hv hr
            subst hr
            subst hv
            obtain ⟨hdec, hfree⟩ := consume_part_some_decomp rest0 v r hcp
            refine ⟨b :: (v ++ 13 :: 10 :: []), by rw [hdec]; simp, by simp,
              by simp [hb1], ?_⟩
            intro u g hg _
            obtain ⟨g2, rfl⟩ : ∃ g2, g = g2 + 1 := ⟨g - 1, by omega⟩
            have hnorm : (b :: (v ++ 13 :: 10 :: [])) ++ u = b :: (v ++ 13 :: 10 :: u) := by
              simp
            rw [hnorm]
            simp [parse_go, hb1, consume_part_resplit v u hfree]
        · rw [if_neg hb1] at H
          by_cases hb2 : b = 42
          · rw [if_pos hb2] at H
            cases hcp : consume_part rest0 with
            | none => simp [hcp] at H
            | some vr =>
              obtain ⟨ls, r⟩ := vr
              simp only [hcp] at H
              obtain ⟨hdec, hfree⟩ := consume_part_some_decomp rest0 ls r hcp
              cases hpi : parse_i64 ls with
              | none =>
                simp only [hpi] at H
                injection H with hv hr
                subst hr
                subst hv
                refine ⟨b :: (ls ++ 13 :: 10 :: []), by rw [hdec]; simp, by simp,
                  by simp [hb2], ?_⟩
                intro u g hg _
                obtain ⟨g2, rfl⟩ : ∃ g2, g = g2 + 1 := ⟨g - 1, by omega⟩
                have hnorm : (b :: (ls ++ 13 :: 10 :: [])) ++ u = b :: (ls ++ 13 :: 10 :: u) := by
                  simp
                rw [hnorm]
                simp [parse_go, hb1, hb2, consume_part_resplit ls u hfree, hpi]
              | some len =>
                simp only [hpi] at H
                by_cases hlm1 : len = -1
                · rw [if_pos hlm1] at H
                  injection H with hv hr
                  subst hr
                  subst hv
                  refine ⟨b :: (ls ++ 13 :: 10 :: []), by rw [hdec]; simp, by simp,
                    by simp [hb2], ?_⟩
                  intro u g hg _
                  obtain ⟨g2, rfl⟩ : ∃ g2, g = g2 + 1 := ⟨g - 1, by omega⟩
                  have hnorm : (b :: (ls ++ 13 :: 10 :: [])) ++ u =
                      b :: (ls ++ 13 :: 10 :: u) := by simp
                  rw [hnorm]
                  simp [parse_go, hb1, hb2, consume_part_resplit ls u hfree, hpi, hlm1]
                · rw [if_neg hlm1] at H
                  by_cases hlm2 : len < 0
                  · rw [if_pos hlm2] at H
                    injection H with hv hr
                    subst hr
                    subst hv
                    refine ⟨b :: (ls ++ 13 :: 10 :: []), by rw [hdec]; simp, by simp,
                      by simp [hb2], ?_⟩
                    intro u g hg _
                    obtain ⟨g2, rfl⟩ : ∃ g2, g = g2 + 1 := ⟨g - 1, by omega⟩
                    have hnorm : (b :: (ls ++ 13 :: 10 :: [])) ++ u =
                        b :: (ls ++ 13 :: 10 :: u) := by simp
                    rw [hnorm]
                    simp [parse_go, hb1, hb2, consume_part_resplit ls u hfree, hpi, hlm1, hlm2]
                  · rw [if_neg hlm2] at H
                    cases hel : parse_go f (.elems len.toNat r) with
                    | okE es2 r2 =>
                      simp only [hel] at H
                      injection H with hv hr
                      subst hr
                      subst hv
                      obtain ⟨p2, hdec2, hh2, hrep2⟩ := ihE len.toNat r es2 r2 hel
                      refine ⟨b :: (ls ++ 13 :: 10 :: p2), ?_, by simp, by simp [hb2], ?_⟩
                      · rw [hdec, hdec2]
                        simp
                      · intro u g hg hcond
                        obtain ⟨g2, rfl⟩ : ∃ g2, g = g2 + 1 := ⟨g - 1, by omega⟩
                        have hnorm : (b :: (ls ++ 13 :: 10 :: p2)) ++ u =
                            b :: (ls ++ 13 :: 10 :: (p2 ++ u)) := by simp
                        rw [hnorm]
                        have hrep2u := hrep2 u g2 (by simp at hg; omega) hcond
                        simp [parse_go, hb1, hb2,
                          consume_part_resplit ls (p2 ++ u) hfree, hpi, hlm1, hlm2, hrep2u]
                    | okF t2 r2 => simp [hel] at H
                    | needMore => simp [hel] at H
                    | panicked => simp [hel] at H
                    | noFuel => simp [hel] at H
          · rw [if_neg hb2] at H
            by_cases hb3 : b = 36
            · rw [if_pos hb3] at H
              cases hcp : consume_part rest0 with
              | none => simp [hcp] at H
              | some vr =>
                obtain ⟨ls, r⟩ := vr
                simp only [hcp] at H
                obtain ⟨hdec, hfree⟩ := consume_part_some_decomp rest0 ls r hcp
                cases hpi : parse_i64 ls with
                | none =>
                  simp only [hpi] at H
                  injection H with hv hr
                  subst hr
                  subst hv
                  refine ⟨b :: (ls ++ 13 :: 10 :: []), by rw [hdec]; simp, by simp,
                    by simp [hb3], ?_⟩
                  intro u g hg _
                  obtain ⟨g2, rfl⟩ : ∃ g2, g = g2 + 1 := ⟨g - 1, by omega⟩
                  have hnorm : (b :: (ls ++ 13 :: 10 :: [])) ++ u =
                      b :: (ls ++ 13 :: 10 :: u) := by simp
                  rw [hnorm]
                  simp [parse_go, hb1, hb2, hb3, consume_part_resplit ls u hfree, hpi]
                | some len =>
                  simp only [hpi] at H
                  by_cases hlm1 : len = -1
                  · rw [if_pos hlm1] at H
                    injection H with hv hr
                    subst hr
                    subst hv
                    refine ⟨b :: (ls ++ 13 :: 10 :: []), by rw [hdec]; simp, by simp,
                      by simp [hb3], ?_⟩
                    intro u g hg _
                    obtain ⟨g2, rfl⟩ : ∃ g2, g = g2 + 1 := ⟨g - 1, by omega⟩
                    have hnorm : (b :: (ls ++ 13 :: 10 :: [])) ++ u =
                        b :: (ls ++ 13 :: 10 :: u) := by simp
                    rw [hnorm]
                    simp [parse_go, hb1, hb2, hb3, consume_part_resplit ls u hfree, hpi, hlm1]
                  · rw [if_neg hlm1] at H
                    by_cases hlm2 : len < 0
                    · rw [if_pos hlm2] at H
                      injection H with hv hr
                      subst hr
                      subst hv
                      refine ⟨b :: (ls ++ 13 :: 10 :: []), by rw [hdec]; simp, by simp,
                        by simp [hb3], ?_⟩
                      intro u g hg _
                      obtain ⟨g2, rfl⟩ : ∃ g2, g = g2 + 1 := ⟨g - 1, by omega⟩
                      have hnorm : (b :: (ls ++ 13 :: 10 :: [])) ++ u =
                          b :: (ls ++ 13 :: 10 :: u) := by simp
                      rw [hnorm]
                      simp [parse_go, hb1, hb2, hb3, consume_part_resplit ls u hfree, hpi,
                        hlm1, hlm2]
                    · rw [if_neg hlm2] at H
                      cases hcp2 : consume_part r with
                      | none => simp [hcp2] at H
                      | some vr2 =>
                        obtain ⟨v2, r2⟩ := vr2
                        simp only [hcp2] at H
                        injection H with hv hr
                        subst hr
                        subst hv
                        obtain ⟨hdec2, hfree2⟩ := consume_part_some_decomp r v2 r2 hcp2
                        refine ⟨b :: (ls ++ 13 :: 10 :: (v2 ++ 13 :: 10 :: [])), ?_, by simp,
                          by simp [hb3], ?_⟩
                        · rw [hdec, hdec2]
                          simp
                        · intro u g hg _
                          obtain ⟨g2, rfl⟩ : ∃ g2, g = g2 + 1 := ⟨g - 1, by omega⟩
                          have hnorm : (b :: (ls ++ 13 :: 10 :: (v2 ++ 13 :: 10 :: []))) ++ u =
                              b :: (ls ++ 13 :: 10 :: (v2 ++ 13 :: 10 :: u)) := by simp
                          rw [hnorm]
                          simp [parse_go, hb1, hb2, hb3,
                            consume_part_resplit ls (v2 ++ 13 :: 10 :: u) hfree, hpi,
                            hlm1, hlm2, consume_part_resplit v2 u hfree2]
            · rw [if_neg hb3] at H
              by_cases hb4 : b = 58
              · rw [if_pos hb4] at H
                cases hcp : consume_part rest0 with
                | some vr =>
                  obtain ⟨s1, r⟩ := vr
                  simp only [hcp] at H
                  obtain ⟨hdec, hfree⟩ := consume_part_some_decomp rest0 s1 r hcp
                  cases hpi : parse_i32 s1 with
                  | some v =>
                    simp only [hpi] at H
                    injection H with hv hr
                    subst hr
                    subst hv
                    refine ⟨b :: (s1 ++ 13 :: 10 :: []), by rw [hdec]; simp, by simp,
                      by simp [hb4], ?_⟩
                    intro u g hg _
                    obtain ⟨g2, rfl⟩ : ∃ g2, g = g2 + 1 := ⟨g - 1, by omega⟩
                    have hnorm : (b :: (s1 ++ 13 :: 10 :: [])) ++ u =
                        b :: (s1 ++ 13 :: 10 :: u) := by simp
                    rw [hnorm]
                    simp [parse_go, hb1, hb2, hb3, hb4, consume_part_resplit s1 u hfree, hpi]
                  | none =>
                    simp only [hpi] at H
                    injection H with hv hr
                    subst hr
                    subst hv
                    refine ⟨b :: (s1 ++ 13 :: 10 :: []), by rw [hdec]; simp, by simp,
                      by simp [hb4], ?_⟩
                    intro u g hg _
                    obtain ⟨g2, rfl⟩ : ∃ g2, g = g2 + 1 := ⟨g - 1, by omega⟩
                    have hnorm : (b :: (s1 ++ 13 :: 10 :: [])) ++ u =
                        b :: (s1 ++ 13 :: 10 :: u) := by simp
                    rw [hnorm]
                    simp [parse_go, hb1, hb2, hb3, hb4, consume_part_resplit s1 u hfree, hpi]
                | none =>
                  simp only [hcp] at H
                  injection H with hv hr
                  subst hr
                  subst hv
                  have hfree0 : crlf_free rest0 = true := (consume_part_none_iff rest0).mp hcp
                  refine ⟨[b], rfl, by simp, by simp [hb4], ?_⟩
                  intro u g hg hcond
                  obtain ⟨hu, _⟩ := hcond hfree0
                  obtain ⟨g2, rfl⟩ : ∃ g2, g = g2 + 1 := ⟨g - 1, by omega⟩
                  have hcpu : consume_part u = none := (consume_part_none_iff u).mpr hu
                  simp [parse_go, hb1, hb2, hb3, hb4, hcpu]
              · rw [if_neg hb4] at H
                exact ParseOut.noConfusion H
    · intro n buf es rest H
      cases n with
      | zero =>
        simp only [parse_go] at H
        injection H with hv hr
        subst hr
        subst hv
        refine ⟨[], by simp, Or.inl rfl, ?_⟩
        intro u g hg _
        obtain ⟨g2, rfl⟩ : ∃ g2, g = g2 + 1 := ⟨g - 1, by omega⟩
        simp [parse_go]
      | succ m =>
        simp only [parse_go] at H
        cases hfr : parse_go f (.frame buf) with
        | okF el rest1 =>
          simp only [hfr] at H
          cases hes : parse_go f (.elems m rest1) with
          | okE es2 r2 =>
            simp only [hes] at H
            injection H with hv hr
            subst hr
            subst hv
            obtain ⟨p1, hd1, hne1, hh1, hrep1⟩ := ihF buf el rest1 hfr
            obtain ⟨p2, hd2, hh2, hrep2⟩ := ihE m rest1 es2 r2 hes
            have hp1len : 1 ≤ p1.length := by
              cases p1 with
              | nil => exact absurd rfl hne1
              | cons c q => simp
            refine ⟨p1 ++ p2, ?_, ?_, ?_⟩
            · rw [hd1, hd2]
              simp
            · right
              rw [head?_append_left p1 p2 hne1]
              exact hh1
            · intro u g hg hcond
              obtain ⟨g2, rfl⟩ : ∃ g2, g = g2 + 1 := ⟨g - 1, by omega⟩
              have hcond1 : crlf_free rest1 = true →
                  crlf_free (p2 ++ u) = true ∧ (p2 ++ u).head? ≠ some 10 := by
                intro hf1
                rw [hd2] at hf1
                obtain ⟨hp2f, hrestf⟩ := crlf_free_append_decomp p2 r2 hf1
                obtain ⟨hu, huh⟩ := hcond hrestf
                refine ⟨crlf_free_append_compose p2 u hp2f hu huh, ?_⟩
                cases p2 with
                | nil => simpa using huh
                | cons c q =>
                  rw [head?_append_left (c :: q) u (by simp)]
                  rcases hh2 with h | h
                  · simp at h
                  · exact h
              have hrep1u := hrep1 (p2 ++ u) g2 (by simp at hg; simp; omega) hcond1
              have hrep2u := hrep2 u g2 (by simp at hg; omega) hcond
              have hnorm : (p1 ++ p2) ++ u = p1 ++ (p2 ++ u) := by simp
              rw [hnorm]
              simp [parse_go, hrep1u, hrep2u]
          | okF t2 r2 => simp [hes] at H
          | needMore => simp [hes] at H
          | panicked => simp [hes] at H
          | noFuel => simp [hes] at H
        | okE ts r2 => simp [hfr] at H
        | needMore => simp [hfr] at H
        | panicked => simp [hfr] at H
        | noFuel => simp [hfr] at H

/-- C8: when try_parse_frame reports that more input is needed the
connection loop consumes nothing (the buffer is left unchanged and no
frame is dispatched), and on success the reported consumed count is
positive, at most the buffer length, and re-parsing exactly those
consumed bytes alone yields the same frame with the same count — the
consumed bytes are precisely a complete encoding of the returned frame,
and the connection loop splits them off the front of the buffer. -/
theorem C8_try_parse_consumes_exact_prefix :
    (∀ buf : List Nat, try_parse_frame buf = .needMore → connection_step buf = none) ∧
    (∀ buf t n, try_parse_frame buf = .ok t n →
      0 < n ∧ n ≤ buf.length ∧
      try_parse_frame (buf.take n) = .ok t n ∧
      connection_step buf = some (t, buf.drop n) ∧
      buf = buf.take n ++ buf.drop n) := by
  constructor
  · intro buf H
    simp [connection_step, H]
  · intro buf t n H
    simp only [try_parse_frame] at H
    by_cases hemp : buf.isEmpty = true
    · rw [if_pos hemp] at H
      exact FrameParse.noConfusion H
    · rw [if_neg hemp] at H
      cases hpg : parse_go (2 * buf.length + 2) (.frame buf) with
      | okF t2 rest =>
        simp only [hpg] at H
        injection H with hv hn
        subst hn
        subst hv
        obtain ⟨p, hdec, hpne, hph, hrep⟩ :=
          (parse_go_replay (2 * buf.length + 2)).1 buf t2 rest hpg
        have hlen : buf.length = p.length + rest.length := by
          rw [hdec]
          simp
        have hnp : buf.length - rest.length = p.length := by omega
        have hppos : 0 < p.length := by
          cases p with
          | nil => exact absurd rfl hpne
          | cons a q => simp
        have hpemp : p.isEmpty = false := by
          cases p with
          | nil => exact absurd rfl hpne
          | cons a q => rfl
        refine ⟨by omega, by omega, ?_, ?_, (List.take_append_drop _ _).symm⟩
        · have htake : buf.take (buf.length - rest.length) = p := by
            rw [hnp, hdec, List.take_left]
          rw [htake]
          have hrepl := hrep [] (2 * p.length + 2)
            (by simp only [List.length_nil]; omega)
            (fun _ => ⟨rfl, by simp⟩)
          rw [List.append_nil] at hrepl
          simp only [try_parse_frame, hpemp]
          rw [if_neg (by simp)]
          simp [hrepl, hnp]
        · simp [connection_step, try_parse_frame, hemp, hpg]
      | okE es r => simp [hpg] at H
      | needMore => simp [hpg] at H
      | panicked => simp [hpg] at H
      | noFuel => simp [hpg] at H

/-- Witness for C8: a truncated simple string yields need-more and
consumes nothing; the buffer holding +OK CR LF followed by the start of
a next frame parses to the simple string OK with exactly the 5 bytes of
its encoding consumed, and re-parsing those 5 bytes alone reproduces
the same result. -/
theorem C8_witness :
    (try_parse_frame (ascii "+OK") = .needMore ∧
      connection_step (ascii "+OK") = none) ∧
    (try_parse_frame (ascii "+OK\r\n+X") = .ok (.SimpleString (ascii "OK")) 5 ∧
      (0 < 5 ∧ 5 ≤ (ascii "+OK\r\n+X").length ∧
        try_parse_frame ((ascii "+OK\r\n+X").take 5) = .ok (.SimpleString (ascii "OK")) 5 ∧
        connection_step (ascii "+OK\r\n+X") =
          some (.SimpleString (ascii "OK"), (ascii "+OK\r\n+X").drop 5) ∧
        ascii "+OK\r\n+X" = (ascii "+OK\r\n+X").take 5 ++ (ascii "+OK\r\n+X").drop 5)) := by
  refine ⟨⟨rfl, C8_try_parse_consumes_exact_prefix.1 (ascii "+OK") rfl⟩, rfl, ?_⟩
  exact C8_try_parse_consumes_exact_prefix.2 (ascii "+OK\r\n+X")
    (.SimpleString (ascii "OK")) 5 rfl
